/-
  Verification of the options-trading toolkit:
  a shallow embedding of `src/black_scholes.py` and the strike-grid
  analytics of `main.py`, with proofs of the specified properties.

  Floating-point arithmetic is modelled by exact real arithmetic; the
  SciPy standard normal CDF is modelled by the mathematical Gaussian CDF.
-/
import Mathlib

open MeasureTheory intervalIntegral Set

/-! ## The standard normal distribution (model of `scipy.stats.norm.cdf`) -/

/-- Density of the standard normal distribution. -/
noncomputable def stdNormalPDF (x : ℝ) : ℝ :=
  Real.exp (-x ^ 2 / 2) / Real.sqrt (2 * Real.pi)

/-- `standard_normal_cdf` from `src/black_scholes.py`: the standard normal
cumulative distribution function (SciPy's `norm.cdf`), modelled as the
integral of the Gaussian density. -/
noncomputable def standard_normal_cdf (x : ℝ) : ℝ :=
  ∫ t in Iic x, stdNormalPDF t

lemma stdNormalPDF_pos (x : ℝ) : 0 < stdNormalPDF x := by
  apply div_pos (Real.exp_pos _)
  exact Real.sqrt_pos.mpr (by positivity)

lemma stdNormalPDF_nonneg (x : ℝ) : 0 ≤ stdNormalPDF x := (stdNormalPDF_pos x).le

lemma stdNormalPDF_even (x : ℝ) : stdNormalPDF (-x) = stdNormalPDF x := by
  simp [stdNormalPDF]

lemma continuous_stdNormalPDF : Continuous stdNormalPDF := by
  unfold stdNormalPDF
  fun_prop

lemma stdNormalPDF_eq (x : ℝ) :
    stdNormalPDF x = Real.exp (-(2⁻¹ : ℝ) * x ^ 2) / Real.sqrt (2 * Real.pi) := by
  unfold stdNormalPDF
  ring_nf

lemma integrable_stdNormalPDF : Integrable stdNormalPDF := by
  have h : Integrable (fun x : ℝ => Real.exp (-(2⁻¹ : ℝ) * x ^ 2)) :=
    integrable_exp_neg_mul_sq (by norm_num)
  have h2 : Integrable (fun x : ℝ => Real.exp (-(2⁻¹ : ℝ) * x ^ 2) / Real.sqrt (2 * Real.pi)) :=
    h.div_const _
  refine h2.congr ?_
  filter_upwards with x
  exact (stdNormalPDF_eq x).symm

lemma integral_stdNormalPDF : ∫ x, stdNormalPDF x = 1 := by
  have hg : ∫ x : ℝ, Real.exp (-(2⁻¹ : ℝ) * x ^ 2) = Real.sqrt (Real.pi / 2⁻¹) :=
    integral_gaussian _
  calc ∫ x, stdNormalPDF x
      = ∫ x : ℝ, Real.exp (-(2⁻¹ : ℝ) * x ^ 2) / Real.sqrt (2 * Real.pi) := by
        exact integral_congr_ae (Filter.Eventually.of_forall stdNormalPDF_eq)
    _ = (∫ x : ℝ, Real.exp (-(2⁻¹ : ℝ) * x ^ 2)) / Real.sqrt (2 * Real.pi) := by
        exact integral_div _ _
    _ = Real.sqrt (Real.pi / 2⁻¹) / Real.sqrt (2 * Real.pi) := by rw [hg]
    _ = 1 := by
        rw [show Real.pi / (2⁻¹ : ℝ) = 2 * Real.pi by ring]
        exact div_self (ne_of_gt (Real.sqrt_pos.mpr (by positivity)))

lemma standard_normal_cdf_nonneg (x : ℝ) : 0 ≤ standard_normal_cdf x :=
  setIntegral_nonneg measurableSet_Iic fun t _ => stdNormalPDF_nonneg t

lemma standard_normal_cdf_le_one (x : ℝ) : standard_normal_cdf x ≤ 1 := by
  calc standard_normal_cdf x
      ≤ ∫ t, stdNormalPDF t :=
        setIntegral_le_integral integrable_stdNormalPDF
          (Filter.Eventually.of_forall stdNormalPDF_nonneg)
    _ = 1 := integral_stdNormalPDF

/-- Reflection: `N(-x)` is the upper-tail mass above `x`. -/
lemma standard_normal_cdf_neg (x : ℝ) :
    standard_normal_cdf (-x) = ∫ t in Ioi x, stdNormalPDF t := by
  unfold standard_normal_cdf
  rw [← integral_comp_neg_Ioi]
  exact integral_congr_ae (Filter.Eventually.of_forall fun t => stdNormalPDF_even t)

/-- The CDF satisfies `N(x) + N(-x) = 1`. -/
lemma standard_normal_cdf_add_neg (x : ℝ) :
    standard_normal_cdf x + standard_normal_cdf (-x) = 1 := by
  rw [standard_normal_cdf_neg]
  unfold standard_normal_cdf
  rw [integral_Iic_add_Ioi integrable_stdNormalPDF.integrableOn
    integrable_stdNormalPDF.integrableOn]
  exact integral_stdNormalPDF

lemma standard_normal_cdf_sub (x y : ℝ) :
    standard_normal_cdf y - standard_normal_cdf x = ∫ t in x..y, stdNormalPDF t :=
  integral_Iic_sub_Iic integrable_stdNormalPDF.integrableOn
    integrable_stdNormalPDF.integrableOn

lemma standard_normal_cdf_strictMono : StrictMono standard_normal_cdf := by
  intro x y hxy
  have h : 0 < ∫ t in x..y, stdNormalPDF t :=
    intervalIntegral_pos_of_pos
      integrable_stdNormalPDF.intervalIntegrable stdNormalPDF_pos hxy
  have := standard_normal_cdf_sub x y
  linarith

lemma standard_normal_cdf_pos (x : ℝ) : 0 < standard_normal_cdf x :=
  lt_of_le_of_lt (standard_normal_cdf_nonneg (x - 1))
    (standard_normal_cdf_strictMono (by linarith))

lemma standard_normal_cdf_lt_one (x : ℝ) : standard_normal_cdf x < 1 := by
  have h := standard_normal_cdf_add_neg x
  have := standard_normal_cdf_pos (-x)
  linarith

lemma standard_normal_cdf_hasDerivAt (x : ℝ) :
    HasDerivAt standard_normal_cdf (stdNormalPDF x) x := by
  have hfun : standard_normal_cdf =
      fun u => standard_normal_cdf 0 + ∫ t in (0:ℝ)..u, stdNormalPDF t := by
    funext u
    have := standard_normal_cdf_sub 0 u
    linarith
  rw [hfun]
  exact ((continuous_stdNormalPDF.integral_hasStrictDerivAt 0 x).hasDerivAt).const_add _

/-! ## The Pricer: `black_scholes_option_price` from `src/black_scholes.py` -/

/-- The `d1` parameter of the Black-Scholes formula (as computed in the source). -/
noncomputable def bs_d1 (years_to_expiry strike spot volatility interest_rate : ℝ) : ℝ :=
  (Real.log (spot / strike) + (interest_rate + 0.5 * volatility ^ 2) * years_to_expiry) /
    (volatility * Real.sqrt years_to_expiry)

/-- The `d2` parameter of the Black-Scholes formula (as computed in the source). -/
noncomputable def bs_d2 (years_to_expiry strike spot volatility interest_rate : ℝ) : ℝ :=
  bs_d1 years_to_expiry strike spot volatility interest_rate -
    volatility * Real.sqrt years_to_expiry

/-- The price computed on the `is_call` branch of the source. -/
noncomputable def bs_call_price (years_to_expiry strike spot volatility interest_rate : ℝ) : ℝ :=
  spot * standard_normal_cdf (bs_d1 years_to_expiry strike spot volatility interest_rate) -
    strike * Real.exp (-interest_rate * years_to_expiry) *
      standard_normal_cdf (bs_d2 years_to_expiry strike spot volatility interest_rate)

/-- The delta computed on the `is_call` branch of the source. -/
noncomputable def bs_call_delta (years_to_expiry strike spot volatility interest_rate : ℝ) : ℝ :=
  standard_normal_cdf (bs_d1 years_to_expiry strike spot volatility interest_rate)

/-- The price computed on the put branch of the source. -/
noncomputable def bs_put_price (years_to_expiry strike spot volatility interest_rate : ℝ) : ℝ :=
  strike * Real.exp (-interest_rate * years_to_expiry) *
      standard_normal_cdf (-bs_d2 years_to_expiry strike spot volatility interest_rate) -
    spot * standard_normal_cdf (-bs_d1 years_to_expiry strike spot volatility interest_rate)

/-- The delta computed on the put branch of the source. -/
noncomputable def bs_put_delta (years_to_expiry strike spot volatility interest_rate : ℝ) : ℝ :=
  -standard_normal_cdf (-bs_d1 years_to_expiry strike spot volatility interest_rate)

/-- The vega computed (identically) on both branches of the source:
`spot * np.sqrt(years_to_expiry) * standard_normal_cdf(d1)`. -/
noncomputable def bs_vega (years_to_expiry strike spot volatility interest_rate : ℝ) : ℝ :=
  spot * Real.sqrt years_to_expiry *
    standard_normal_cdf (bs_d1 years_to_expiry strike spot volatility interest_rate)

/-- `black_scholes_option_price` from `src/black_scholes.py`.

The five `assert` statements are modelled by guards that abort the call (in
source order) with a diagnostic naming the violated condition, before any of
the model is evaluated; on success the returned triple is
`(price, delta, vega)` exactly as in the source, with the vega expression
duplicated on both branches as in the source. -/
noncomputable def black_scholes_option_price
    (years_to_expiry strike spot volatility interest_rate : ℝ) (is_call : Bool) :
    Except String (ℝ × ℝ × ℝ) :=
  if ¬ years_to_expiry > 0 then Except.error "years_to_expiry > 0" else
  if ¬ strike > 0 then Except.error "strike > 0" else
  if ¬ spot > 0 then Except.error "spot > 0" else
  if ¬ volatility > 0 then Except.error "volatility > 0" else
  if ¬ interest_rate > 0 then Except.error "interest_rate > 0" else
  let d1 := (Real.log (spot / strike) +
      (interest_rate + 0.5 * volatility ^ 2) * years_to_expiry) /
    (volatility * Real.sqrt years_to_expiry)
  let d2 := d1 - volatility * Real.sqrt years_to_expiry
  if is_call then
    Except.ok
      (spot * standard_normal_cdf d1 -
          strike * Real.exp (-interest_rate * years_to_expiry) * standard_normal_cdf d2,
        standard_normal_cdf d1,
        spot * Real.sqrt years_to_expiry * standard_normal_cdf d1)
  else
    Except.ok
      (strike * Real.exp (-interest_rate * years_to_expiry) * standard_normal_cdf (-d2) -
          spot * standard_normal_cdf (-d1),
        -standard_normal_cdf (-d1),
        spot * Real.sqrt years_to_expiry * standard_normal_cdf d1)

/-- On valid inputs, the call branch of the Pricer succeeds and returns the
pure Black-Scholes components. -/
lemma black_scholes_ok_call {T K S σ r : ℝ}
    (hT : T > 0) (hK : K > 0) (hS : S > 0) (hσ : σ > 0) (hr : r > 0) :
    black_scholes_option_price T K S σ r true =
      Except.ok (bs_call_price T K S σ r, bs_call_delta T K S σ r, bs_vega T K S σ r) := by
  unfold black_scholes_option_price bs_call_price bs_call_delta bs_vega bs_d2 bs_d1
  rw [if_neg (by simpa using hT), if_neg (by simpa using hK), if_neg (by simpa using hS),
    if_neg (by simpa using hσ), if_neg (by simpa using hr)]
  rfl

/-- On valid inputs, the put branch of the Pricer succeeds and returns the
pure Black-Scholes components. -/
lemma black_scholes_ok_put {T K S σ r : ℝ}
    (hT : T > 0) (hK : K > 0) (hS : S > 0) (hσ : σ > 0) (hr : r > 0) :
    black_scholes_option_price T K S σ r false =
      Except.ok (bs_put_price T K S σ r, bs_put_delta T K S σ r, bs_vega T K S σ r) := by
  unfold black_scholes_option_price bs_put_price bs_put_delta bs_vega bs_d2 bs_d1
  rw [if_neg (by simpa using hT), if_neg (by simpa using hK), if_neg (by simpa using hS),
    if_neg (by simpa using hσ), if_neg (by simpa using hr)]
  rfl

/-! ## The Strike Grid Analyzer: the strike grid of `main.py` -/

/-- Python's `int()` applied to a float: truncation toward zero. -/
noncomputable def int_trunc (x : ℝ) : ℤ :=
  if 0 ≤ x then ⌊x⌋ else ⌈x⌉

/-- `np.arange(start, stop, step)` in exact arithmetic: the values
`start, start + step, ...` strictly below `stop` (for positive `step`,
`⌈(stop - start) / step⌉` of them). -/
noncomputable def np_arange (start stop step : ℝ) : List ℝ :=
  (List.range (⌈(stop - start) / step⌉.toNat)).map fun i : ℕ => start + (i : ℝ) * step

/-- The strike grid of `main.py`:
`np.arange(strike_range_start, strike_range_end + strike_range_step, strike_range_step)`. -/
noncomputable def strikes (strike_range_start strike_range_end strike_range_step : ℝ) :
    List ℝ :=
  np_arange strike_range_start (strike_range_end + strike_range_step) strike_range_step

/-- One row of the `option_prices` table of `main.py`, with all derived
columns appended. -/
structure StrikeRow where
  strike : ℤ
  callPrice : ℝ
  callDelta : ℝ
  putPrice : ℝ
  putDelta : ℝ
  vega : ℝ
  distanceToStrikePct : ℝ
  putsPerCall : ℝ
  callBreakEven : ℝ
  putBreakEven : ℝ
  vegaPerStraddle : ℝ

/-- The row of the `option_prices` table built by `main.py` for one strike
value `k` of the grid.

The loop body appends `int(strike)` to the `Strike` column and the scaled
pricer outputs (`price * ratio / eur_usd` for the price columns, the raw
deltas, and the put-branch `vega * ratio`); the derived columns
(`Distance to Strike (%)`, `Puts per Call`, the break-evens and
`Vega per Straddle`) are computed afterwards from the row's own columns —
in particular from the truncated `Strike` column, not from `k`. -/
noncomputable def option_prices_row
    (last_price vola r years_to_expiry ratio eur_usd : ℝ) (k : ℝ) : StrikeRow :=
  let strikeCol : ℤ := int_trunc k
  let callPrice := bs_call_price years_to_expiry k last_price vola r * ratio / eur_usd
  let callDelta := bs_call_delta years_to_expiry k last_price vola r
  let putPrice := bs_put_price years_to_expiry k last_price vola r * ratio / eur_usd
  let putDelta := bs_put_delta years_to_expiry k last_price vola r
  let vega := bs_vega years_to_expiry k last_price vola r * ratio
  let putsPerCall := -callDelta / putDelta
  { strike := strikeCol
    callPrice := callPrice
    callDelta := callDelta
    putPrice := putPrice
    putDelta := putDelta
    vega := vega
    distanceToStrikePct := ((strikeCol : ℝ) / last_price - 1.0) * 100.0
    putsPerCall := putsPerCall
    callBreakEven := (strikeCol : ℝ) + callPrice / ratio
    putBreakEven := (strikeCol : ℝ) - putPrice / ratio
    vegaPerStraddle := 2 * vega / (callPrice + putPrice * putsPerCall) }

/-- The full `option_prices` table of `main.py`: one row per grid strike,
in generation order. -/
noncomputable def option_prices
    (last_price vola r years_to_expiry ratio eur_usd : ℝ)
    (strike_range_start strike_range_end strike_range_step : ℝ) : List StrikeRow :=
  (strikes strike_range_start strike_range_end strike_range_step).map
    (option_prices_row last_price vola r years_to_expiry ratio eur_usd)

/-! ## Claims about the Pricer -/

/-- C1: for every contract satisfying the Pricer preconditions, the vega
returned by the Pricer equals `spot * sqrt(yearsToExpiry) * N(d1)` regardless
of `isCall`; in particular the call-branch vega equals the put-branch vega
exactly. -/
theorem C1_vega_branch_symmetric {T K S σ r : ℝ}
    (hT : T > 0) (hK : K > 0) (hS : S > 0) (hσ : σ > 0) (hr : r > 0) :
    (∀ (b : Bool) (out : ℝ × ℝ × ℝ),
        black_scholes_option_price T K S σ r b = Except.ok out →
        out.2.2 = S * Real.sqrt T * standard_normal_cdf (bs_d1 T K S σ r)) ∧
    (∀ c p : ℝ × ℝ × ℝ,
        black_scholes_option_price T K S σ r true = Except.ok c →
        black_scholes_option_price T K S σ r false = Except.ok p →
        c.2.2 = p.2.2) := by
  have hvega : ∀ (b : Bool) (out : ℝ × ℝ × ℝ),
      black_scholes_option_price T K S σ r b = Except.ok out →
      out.2.2 = S * Real.sqrt T * standard_normal_cdf (bs_d1 T K S σ r) := by
    intro b out hout
    cases b with
    | false =>
        rw [black_scholes_ok_put hT hK hS hσ hr] at hout
        injection hout with hout
        rw [← hout]
        rfl
    | true =>
        rw [black_scholes_ok_call hT hK hS hσ hr] at hout
        injection hout with hout
        rw [← hout]
        rfl
  exact ⟨hvega, fun c p hc hp => (hvega true c hc).trans (hvega false p hp).symm⟩

theorem C1_vega_branch_symmetric_witness :
    bs_vega 1 1 1 1 1 = 1 * Real.sqrt 1 * standard_normal_cdf (bs_d1 1 1 1 1 1) :=
  (C1_vega_branch_symmetric one_pos one_pos one_pos one_pos one_pos).1 true
    (bs_call_price 1 1 1 1 1, bs_call_delta 1 1 1 1 1, bs_vega 1 1 1 1 1)
    (black_scholes_ok_call one_pos one_pos one_pos one_pos one_pos)

/-- C2: for every valid contract, the call price and the put price returned
by the Pricer satisfy put-call parity
`callPrice - putPrice = spot - strike * exp(-rate * T)` exactly in real
arithmetic. -/
theorem C2_put_call_parity {T K S σ r : ℝ}
    (hT : T > 0) (hK : K > 0) (hS : S > 0) (hσ : σ > 0) (hr : r > 0) :
    ∀ c p : ℝ × ℝ × ℝ,
      black_scholes_option_price T K S σ r true = Except.ok c →
      black_scholes_option_price T K S σ r false = Except.ok p →
      c.1 - p.1 = S - K * Real.exp (-r * T) := by
  intro c p hc hp
  rw [black_scholes_ok_call hT hK hS hσ hr] at hc
  rw [black_scholes_ok_put hT hK hS hσ hr] at hp
  injection hc with hc
  injection hp with hp
  rw [← hc, ← hp]
  show bs_call_price T K S σ r - bs_put_price T K S σ r = _
  unfold bs_call_price bs_put_price
  have h1 := standard_normal_cdf_add_neg (bs_d1 T K S σ r)
  have h2 := standard_normal_cdf_add_neg (bs_d2 T K S σ r)
  linear_combination S * h1 - K * Real.exp (-r * T) * h2

theorem C2_put_call_parity_witness :
    bs_call_price 1 1 1 1 1 - bs_put_price 1 1 1 1 1 = 1 - 1 * Real.exp (-1 * 1) :=
  C2_put_call_parity one_pos one_pos one_pos one_pos one_pos _ _
    (black_scholes_ok_call one_pos one_pos one_pos one_pos one_pos)
    (black_scholes_ok_put one_pos one_pos one_pos one_pos one_pos)

/-- C5: for every pricing call with a non-positive parameter, the Pricer
aborts (in assert order, before evaluating the model) with a diagnostic
naming a violated precondition, and returns no price/delta/vega triple. -/
theorem C5_precondition_failure {T K S σ r : ℝ}
    (h : T ≤ 0 ∨ K ≤ 0 ∨ S ≤ 0 ∨ σ ≤ 0 ∨ r ≤ 0) (b : Bool) :
    ∃ msg, black_scholes_option_price T K S σ r b = Except.error msg ∧
      ((msg = "years_to_expiry > 0" ∧ T ≤ 0) ∨ (msg = "strike > 0" ∧ K ≤ 0) ∨
       (msg = "spot > 0" ∧ S ≤ 0) ∨ (msg = "volatility > 0" ∧ σ ≤ 0) ∨
       (msg = "interest_rate > 0" ∧ r ≤ 0)) := by
  unfold black_scholes_option_price
  by_cases hT : T > 0
  · rw [if_neg (by simpa using hT)]
    by_cases hK : K > 0
    · rw [if_neg (by simpa using hK)]
      by_cases hS : S > 0
      · rw [if_neg (by simpa using hS)]
        by_cases hσ : σ > 0
        · rw [if_neg (by simpa using hσ)]
          by_cases hr : r > 0
          · exfalso
            rcases h with h | h | h | h | h <;> linarith
          · rw [if_pos (by simpa using hr)]
            exact ⟨_, rfl, Or.inr (Or.inr (Or.inr (Or.inr ⟨rfl, not_lt.mp hr⟩)))⟩
        · rw [if_pos (by simpa using hσ)]
          exact ⟨_, rfl, Or.inr (Or.inr (Or.inr (Or.inl ⟨rfl, not_lt.mp hσ⟩)))⟩
      · rw [if_pos (by simpa using hS)]
        exact ⟨_, rfl, Or.inr (Or.inr (Or.inl ⟨rfl, not_lt.mp hS⟩))⟩
    · rw [if_pos (by simpa using hK)]
      exact ⟨_, rfl, Or.inr (Or.inl ⟨rfl, not_lt.mp hK⟩)⟩
  · rw [if_pos (by simpa using hT)]
    exact ⟨_, rfl, Or.inl ⟨rfl, not_lt.mp hT⟩⟩

theorem C5_precondition_failure_witness :
    ∃ msg, black_scholes_option_price (-1) 1 1 1 1 true = Except.error msg ∧
      ((msg = "years_to_expiry > 0" ∧ (-1 : ℝ) ≤ 0) ∨ (msg = "strike > 0" ∧ (1 : ℝ) ≤ 0) ∨
       (msg = "spot > 0" ∧ (1 : ℝ) ≤ 0) ∨ (msg = "volatility > 0" ∧ (1 : ℝ) ≤ 0) ∨
       (msg = "interest_rate > 0" ∧ (1 : ℝ) ≤ 0)) :=
  C5_precondition_failure (Or.inl (by norm_num)) true

/-- C9: for every valid contract, the returned call delta lies in `[0, 1]`
and the returned put delta lies in `[-1, 0]`. -/
theorem C9_delta_bounds {T K S σ r : ℝ}
    (hT : T > 0) (hK : K > 0) (hS : S > 0) (hσ : σ > 0) (hr : r > 0) :
    ∀ c p : ℝ × ℝ × ℝ,
      black_scholes_option_price T K S σ r true = Except.ok c →
      black_scholes_option_price T K S σ r false = Except.ok p →
      (0 ≤ c.2.1 ∧ c.2.1 ≤ 1) ∧ (-1 ≤ p.2.1 ∧ p.2.1 ≤ 0) := by
  intro c p hc hp
  rw [black_scholes_ok_call hT hK hS hσ hr] at hc
  rw [black_scholes_ok_put hT hK hS hσ hr] at hp
  injection hc with hc
  injection hp with hp
  rw [← hc, ← hp]
  refine ⟨⟨standard_normal_cdf_nonneg _, standard_normal_cdf_le_one _⟩, ?_, ?_⟩
  · show -1 ≤ -standard_normal_cdf (-bs_d1 T K S σ r)
    have := standard_normal_cdf_le_one (-bs_d1 T K S σ r)
    linarith
  · show -standard_normal_cdf (-bs_d1 T K S σ r) ≤ 0
    have := standard_normal_cdf_nonneg (-bs_d1 T K S σ r)
    linarith

theorem C9_delta_bounds_witness :
    (0 ≤ bs_call_delta 1 1 1 1 1 ∧ bs_call_delta 1 1 1 1 1 ≤ 1) ∧
      (-1 ≤ bs_put_delta 1 1 1 1 1 ∧ bs_put_delta 1 1 1 1 1 ≤ 0) :=
  C9_delta_bounds one_pos one_pos one_pos one_pos one_pos _ _
    (black_scholes_ok_call one_pos one_pos one_pos one_pos one_pos)
    (black_scholes_ok_put one_pos one_pos one_pos one_pos one_pos)

/-! ## Claims about the Strike Grid Analyzer -/

/-- C4: the grid's price fields scale multiplicatively with ratio and the
currency divisor (in particular `ratio = 0.1, eurUsdRate = 2.0` rescales by
`0.1 / 2.0` exactly), vega is `vega_raw * ratio` with no division by
`eurUsdRate`, and the deltas are unchanged by `ratio` and `eurUsdRate`. -/
theorem C4_currency_ratio_scaling (S v r T k : ℝ) :
    ((option_prices_row S v r T 0.1 2.0 k).callPrice =
        (option_prices_row S v r T 1 1 k).callPrice * 0.1 / 2.0) ∧
    ((option_prices_row S v r T 0.1 2.0 k).putPrice =
        (option_prices_row S v r T 1 1 k).putPrice * 0.1 / 2.0) ∧
    (∀ ratio eur_usd : ℝ, (option_prices_row S v r T ratio eur_usd k).callPrice =
        (option_prices_row S v r T 1 1 k).callPrice * ratio / eur_usd) ∧
    (∀ ratio eur_usd : ℝ, (option_prices_row S v r T ratio eur_usd k).putPrice =
        (option_prices_row S v r T 1 1 k).putPrice * ratio / eur_usd) ∧
    (∀ ratio eur_usd : ℝ, (option_prices_row S v r T ratio eur_usd k).vega =
        bs_vega T k S v r * ratio) ∧
    (∀ ratio eur_usd : ℝ,
        (option_prices_row S v r T ratio eur_usd k).callDelta =
            (option_prices_row S v r T 1 1 k).callDelta ∧
        (option_prices_row S v r T ratio eur_usd k).putDelta =
            (option_prices_row S v r T 1 1 k).putDelta) := by
  refine ⟨?_, ?_, ?_, ?_, ?_, ?_⟩ <;>
    simp only [option_prices_row] <;> intros <;> norm_num

/-- C7 (amended): the emitted record's `distanceToStrikePct` is computed from
the truncated integer `Strike` column, i.e. equals
`(trunc(k) / spot - 1.0) * 100.0`, not from the untruncated progression
value `k`. -/
theorem C7_distance_uses_truncated_strike
    (S v r T ratio eur_usd k : ℝ) :
    (option_prices_row S v r T ratio eur_usd k).distanceToStrikePct =
      ((int_trunc k : ℝ) / S - 1.0) * 100.0 := rfl

/-- C7 counterexample: at `spot = 1` and progression value `k = 3/2` the
record's `distanceToStrikePct` is `0`, not the `50` that the untruncated
formula `(k / spot - 1) * 100` would give. -/
theorem C7_distance_counterexample :
    (option_prices_row 1 1 1 1 1 1 (3 / 2)).distanceToStrikePct ≠
      ((3 / 2 : ℝ) / 1 - 1.0) * 100.0 := by
  rw [C7_distance_uses_truncated_strike]
  rw [show int_trunc (3 / 2 : ℝ) = 1 from ?_]
  · norm_num
  · unfold int_trunc
    rw [if_pos (by norm_num)]
    rw [Int.floor_eq_iff]
    norm_num

/-- C3 (amended): for `strikeStart = 90, strikeEnd = 110, strikeStep = 10`
the grid strikes are exactly `[90, 100, 110]`; for every positive step the
grid is emitted in strictly ascending generation order with no re-sorting;
and the configured end strike is present whenever it lies on the progression
lattice (`strikeEnd = strikeStart + n * strikeStep` for some `n : ℕ`). -/
theorem C3_strike_grid (s e st : ℝ) (hst : 0 < st) :
    (strikes 90 110 10 = [90, 100, 110]) ∧
    ((strikes s e st).Sorted (· < ·)) ∧
    (∀ n : ℕ, e = s + n * st → e ∈ strikes s e st) := by
  refine ⟨?_, ?_, ?_⟩
  · unfold strikes np_arange
    rw [show ((110:ℝ) + 10 - 90) / 10 = 3 by norm_num]
    rw [show ⌈(3:ℝ)⌉ = 3 by norm_num]
    rw [show (3:ℤ).toNat = 3 from rfl]
    simp [List.range_succ]
    norm_num
  · unfold strikes np_arange
    refine List.Pairwise.map _ ?_ (List.pairwise_lt_range _)
    intro a b hab
    have h2 : (a : ℝ) * st < (b : ℝ) * st :=
      mul_lt_mul_of_pos_right (by exact_mod_cast hab) hst
    linarith
  · intro n hn
    unfold strikes np_arange
    have hcount : (e + st - s) / st = ((n + 1 : ℕ) : ℝ) := by
      rw [hn]
      push_cast
      field_simp
      ring
    rw [hcount, Int.ceil_natCast]
    refine List.mem_map.mpr ⟨n, List.mem_range.mpr ?_, ?_⟩
    · simp
    · rw [hn]

theorem C3_strike_grid_witness :
    (strikes 90 110 10 = [90, 100, 110]) ∧
    ((strikes 90 110 10).Sorted (· < ·)) ∧
    (110 : ℝ) ∈ strikes 90 110 10 :=
  ⟨(C3_strike_grid 90 110 10 (by norm_num)).1,
    (C3_strike_grid 90 110 10 (by norm_num)).2.1,
    (C3_strike_grid 90 110 10 (by norm_num)).2.2 2 (by norm_num)⟩

/-- C3 counterexample: for the valid progression
`strikeStart = 90, strikeEnd = 105, strikeStep = 10` (positive step,
`start ≤ end`) the configured end strike `105` is NOT present in the output:
the grid is `[90, 100, 110]`. -/
theorem C3_strike_grid_counterexample :
    (105 : ℝ) ∉ strikes 90 105 10 := by
  unfold strikes np_arange
  rw [show ⌈((105:ℝ) + 10 - 90) / 10⌉ = 3 by
    rw [Int.ceil_eq_iff]
    norm_num]
  rw [show (3:ℤ).toNat = 3 from rfl]
  simp [List.range_succ]
  norm_num

/-! ## Analytic facts about the Gaussian density and the Mills ratio -/

lemma stdNormalPDF_hasDerivAt (x : ℝ) :
    HasDerivAt stdNormalPDF (-x * stdNormalPDF x) x := by
  have h1 : HasDerivAt (fun t : ℝ => -t ^ 2 / 2) (-x) x := by
    have h := ((hasDerivAt_pow 2 x).neg).div_const 2
    convert h using 1
    ring
  have h2 : HasDerivAt (fun t : ℝ => Real.exp (-t ^ 2 / 2) / Real.sqrt (2 * Real.pi))
      (Real.exp (-x ^ 2 / 2) * -x / Real.sqrt (2 * Real.pi)) x := (h1.exp).div_const _
  have h3 : HasDerivAt stdNormalPDF
      (Real.exp (-x ^ 2 / 2) * -x / Real.sqrt (2 * Real.pi)) x := h2
  convert h3 using 1
  unfold stdNormalPDF
  ring

lemma stdNormalPDF_tendsto_atBot :
    Filter.Tendsto stdNormalPDF Filter.atBot (nhds 0) := by
  have hpow : Filter.Tendsto (fun y : ℝ => y ^ 2) Filter.atTop Filter.atTop :=
    Filter.tendsto_pow_atTop two_ne_zero
  have habs : Filter.Tendsto (fun x : ℝ => |x|) Filter.atBot Filter.atTop :=
    Filter.tendsto_abs_atBot_atTop
  have h1 : Filter.Tendsto (fun x : ℝ => x ^ 2) Filter.atBot Filter.atTop := by
    have h := hpow.comp habs
    exact h.congr fun x => sq_abs x
  have h2 : Filter.Tendsto (fun x : ℝ => -x ^ 2 / 2) Filter.atBot Filter.atBot := by
    have h := (Filter.tendsto_neg_atTop_atBot.comp h1).atBot_div_const (by norm_num : (0:ℝ) < 2)
    exact h.congr fun x => by simp only [Function.comp_apply]
  have h3 := Real.tendsto_exp_atBot.comp h2
  have h4 := h3.div_const (Real.sqrt (2 * Real.pi))
  have : (0:ℝ) / Real.sqrt (2 * Real.pi) = 0 := by simp
  rw [this] at h4
  exact h4

lemma integrable_id_mul_stdNormalPDF : Integrable (fun t : ℝ => t * stdNormalPDF t) := by
  have h := (integrable_mul_exp_neg_mul_sq (by norm_num : (0:ℝ) < 2⁻¹)).div_const
    (Real.sqrt (2 * Real.pi))
  refine h.congr ?_
  filter_upwards with t
  rw [stdNormalPDF_eq]
  ring

/-- The lower incomplete first moment of the Gaussian:
`∫_{-∞}^x t φ(t) dt = -φ(x)`. -/
lemma integral_Iic_id_mul_stdNormalPDF (x : ℝ) :
    ∫ t in Iic x, t * stdNormalPDF t = -stdNormalPDF x := by
  have hderiv : ∀ t ∈ Iic x, HasDerivAt (fun u => -stdNormalPDF u) (t * stdNormalPDF t) t := by
    intro t _
    have h := (stdNormalPDF_hasDerivAt t).neg
    convert h using 1
    ring
  have hint : IntegrableOn (fun t : ℝ => t * stdNormalPDF t) (Iic x) :=
    integrable_id_mul_stdNormalPDF.integrableOn
  have hlim : Filter.Tendsto (fun u => -stdNormalPDF u) Filter.atBot (nhds 0) := by
    have h := stdNormalPDF_tendsto_atBot.neg
    rw [neg_zero] at h
    exact h
  have h := integral_Iic_of_hasDerivAt_of_tendsto' hderiv hint hlim
  rw [h]
  ring

/-- Strict Mills-ratio bound: for `x < 0`, `N(x) < φ(x) / (-x)`. -/
lemma integrable_mills_gap (x : ℝ) :
    Integrable (fun t : ℝ => (t / x - 1) * stdNormalPDF t) := by
  have h1 := integrable_id_mul_stdNormalPDF.div_const x
  have h2 := h1.sub integrable_stdNormalPDF
  refine h2.congr ?_
  filter_upwards with t
  simp only [Pi.sub_apply]
  ring

lemma standard_normal_cdf_lt_of_neg {x : ℝ} (hx : x < 0) :
    standard_normal_cdf x < stdNormalPDF x / (-x) := by
  have hxne : x ≠ 0 := ne_of_lt hx
  have hgint := integrable_mills_gap x
  -- the gap integral evaluates to pdf x / (-x) - N(x)
  have hval : ∫ t in Iic x, (t / x - 1) * stdNormalPDF t =
      stdNormalPDF x / (-x) - standard_normal_cdf x := by
    have hsplit : ∫ t in Iic x, (t / x - 1) * stdNormalPDF t =
        (∫ t in Iic x, t * stdNormalPDF t) / x - ∫ t in Iic x, stdNormalPDF t := by
      rw [← MeasureTheory.integral_div]
      rw [← integral_sub (integrable_id_mul_stdNormalPDF.integrableOn.div_const x)
        integrable_stdNormalPDF.integrableOn]
      refine setIntegral_congr_ae measurableSet_Iic ?_
      filter_upwards with t _
      ring
    rw [hsplit, integral_Iic_id_mul_stdNormalPDF]
    unfold standard_normal_cdf
    rw [neg_div, div_neg]
  -- the gap integral is strictly positive
  have hpos : 0 < ∫ t in Iic x, (t / x - 1) * stdNormalPDF t := by
    have hsub : (∫ t in Iic x, (t / x - 1) * stdNormalPDF t) -
        ∫ t in Iic (x - 1), (t / x - 1) * stdNormalPDF t =
        ∫ t in (x - 1)..x, (t / x - 1) * stdNormalPDF t :=
      integral_Iic_sub_Iic hgint.integrableOn hgint.integrableOn
    have h1 : 0 ≤ ∫ t in Iic (x - 1), (t / x - 1) * stdNormalPDF t := by
      refine setIntegral_nonneg measurableSet_Iic ?_
      intro t ht
      have ht' : t ≤ x := le_trans ht (by linarith)
      have h1t : (1:ℝ) ≤ t / x := by
        have h := mul_le_mul_of_nonpos_right ht' (inv_nonpos.mpr hx.le)
        rw [mul_inv_cancel₀ hxne] at h
        rw [div_eq_mul_inv]
        exact h
      have := stdNormalPDF_nonneg t
      nlinarith
    have h2 : 0 < ∫ t in (x - 1)..x, (t / x - 1) * stdNormalPDF t := by
      refine intervalIntegral_pos_of_pos_on hgint.intervalIntegrable ?_ (by linarith)
      intro t ht
      have htx : t < x := ht.2
      have h1t : (1:ℝ) < t / x := by
        have h := mul_lt_mul_of_neg_right htx (inv_lt_zero.mpr hx)
        rw [mul_inv_cancel₀ hxne] at h
        rw [div_eq_mul_inv]
        exact h
      have := stdNormalPDF_pos t
      nlinarith
    linarith
  rw [hval] at hpos
  linarith

/-- The Mills-type ratio `N(x) / φ(x)` (CDF over density). -/
noncomputable def millsRatio (x : ℝ) : ℝ := standard_normal_cdf x / stdNormalPDF x

lemma millsRatio_hasDerivAt (x : ℝ) :
    HasDerivAt millsRatio (1 + x * millsRatio x) x := by
  have h := (standard_normal_cdf_hasDerivAt x).div (stdNormalPDF_hasDerivAt x)
    (ne_of_gt (stdNormalPDF_pos x))
  have h2 : HasDerivAt millsRatio
      ((stdNormalPDF x * stdNormalPDF x -
        standard_normal_cdf x * (-x * stdNormalPDF x)) / stdNormalPDF x ^ 2) x := h
  convert h2 using 1
  have hpdf := stdNormalPDF_pos x
  field_simp [millsRatio]
  ring

lemma millsRatio_deriv_pos (x : ℝ) : 0 < 1 + x * millsRatio x := by
  have hpdf := stdNormalPDF_pos x
  rcases le_or_lt 0 x with hx | hx
  · have h1 : 0 ≤ millsRatio x :=
      div_nonneg (standard_normal_cdf_nonneg x) (stdNormalPDF_nonneg x)
    nlinarith
  · have h2 := standard_normal_cdf_lt_of_neg hx
    have h4 : 0 < stdNormalPDF x + x * standard_normal_cdf x := by
      have h5 : 0 < (stdNormalPDF x / (-x) - standard_normal_cdf x) * (-x) :=
        mul_pos (by linarith) (by linarith)
      have hxne : -x ≠ 0 := ne_of_gt (by linarith)
      rw [sub_mul, div_mul_cancel₀ _ hxne] at h5
      nlinarith
    have h6 : 1 + x * millsRatio x =
        (stdNormalPDF x + x * standard_normal_cdf x) / stdNormalPDF x := by
      rw [millsRatio]
      field_simp
    rw [h6]
    exact div_pos h4 hpdf

lemma millsRatio_strictMono : StrictMono millsRatio := by
  apply strictMono_of_deriv_pos
  intro x
  rw [(millsRatio_hasDerivAt x).deriv]
  exact millsRatio_deriv_pos x

/-- CDF values expressed through the Mills ratio. -/
lemma standard_normal_cdf_eq_millsRatio (x : ℝ) :
    standard_normal_cdf x = millsRatio x * stdNormalPDF x := by
  rw [millsRatio, div_mul_cancel₀]
  exact ne_of_gt (stdNormalPDF_pos x)

/-! ## Algebraic identities of the Black-Scholes parameters -/

lemma bs_d2_lt_d1 {T K S σ r : ℝ} (hT : T > 0) (hσ : σ > 0) :
    bs_d2 T K S σ r < bs_d1 T K S σ r := by
  rw [bs_d2]
  have h : 0 < σ * Real.sqrt T := mul_pos hσ (Real.sqrt_pos.mpr hT)
  linarith

/-- The classical Gaussian-density identity of the Black-Scholes parameters:
`K * exp(-r*T) * φ(d2) = S * φ(d1)`. -/
lemma bs_pdf_identity {T K S σ r : ℝ}
    (hT : T > 0) (hK : K > 0) (hS : S > 0) (hσ : σ > 0) :
    K * Real.exp (-r * T) * stdNormalPDF (bs_d2 T K S σ r) =
      S * stdNormalPDF (bs_d1 T K S σ r) := by
  have hsq : Real.sqrt T ^ 2 = T := Real.sq_sqrt hT.le
  have hv : 0 < σ * Real.sqrt T := mul_pos hσ (Real.sqrt_pos.mpr hT)
  have hd1v : bs_d1 T K S σ r * (σ * Real.sqrt T) =
      Real.log (S / K) + (r + 0.5 * σ ^ 2) * T := by
    rw [bs_d1]
    field_simp
  have hdiff : -bs_d2 T K S σ r ^ 2 / 2 =
      -bs_d1 T K S σ r ^ 2 / 2 + (Real.log (S / K) + r * T) := by
    rw [bs_d2]
    have hexp : (bs_d1 T K S σ r - σ * Real.sqrt T) ^ 2 =
        bs_d1 T K S σ r ^ 2 - 2 * (bs_d1 T K S σ r * (σ * Real.sqrt T)) +
          (σ * Real.sqrt T) ^ 2 := by ring
    rw [hexp, hd1v]
    have hv2 : (σ * Real.sqrt T) ^ 2 = σ ^ 2 * T := by
      rw [mul_pow, hsq]
    rw [hv2]
    ring
  have hSK : (0:ℝ) < S / K := div_pos hS hK
  have hpdf2 : stdNormalPDF (bs_d2 T K S σ r) =
      stdNormalPDF (bs_d1 T K S σ r) * (S / K * Real.exp (r * T)) := by
    unfold stdNormalPDF
    rw [hdiff, Real.exp_add, Real.exp_add, Real.exp_log hSK]
    ring
  rw [hpdf2]
  have hexp1 : Real.exp (-r * T) * Real.exp (r * T) = 1 := by
    rw [← Real.exp_add]
    norm_num
  have hKne : K ≠ 0 := ne_of_gt hK
  calc K * Real.exp (-r * T) *
      (stdNormalPDF (bs_d1 T K S σ r) * (S / K * Real.exp (r * T)))
      = (K / K) * (Real.exp (-r * T) * Real.exp (r * T)) * S *
          stdNormalPDF (bs_d1 T K S σ r) := by ring
    _ = S * stdNormalPDF (bs_d1 T K S σ r) := by
        rw [div_self hKne, hexp1]
        ring

/-- Strict positivity of the Black-Scholes call price on the valid domain. -/
lemma bs_call_price_pos {T K S σ r : ℝ}
    (hT : T > 0) (hK : K > 0) (hS : S > 0) (hσ : σ > 0) :
    0 < bs_call_price T K S σ r := by
  have hid : K * Real.exp (-r * T) * stdNormalPDF (bs_d2 T K S σ r) =
      S * stdNormalPDF (bs_d1 T K S σ r) := bs_pdf_identity hT hK hS hσ
  have hd : bs_d2 T K S σ r < bs_d1 T K S σ r := bs_d2_lt_d1 hT hσ
  have hR := millsRatio_strictMono hd
  have hp1 := stdNormalPDF_pos (bs_d1 T K S σ r)
  unfold bs_call_price
  rw [standard_normal_cdf_eq_millsRatio (bs_d1 T K S σ r),
    standard_normal_cdf_eq_millsRatio (bs_d2 T K S σ r)]
  have hrw : K * Real.exp (-r * T) *
      (millsRatio (bs_d2 T K S σ r) * stdNormalPDF (bs_d2 T K S σ r)) =
      millsRatio (bs_d2 T K S σ r) * (S * stdNormalPDF (bs_d1 T K S σ r)) := by
    rw [← hid]
    ring
  rw [hrw]
  nlinarith [mul_pos hS hp1]

/-- Strict positivity of the Black-Scholes put price on the valid domain. -/
lemma bs_put_price_pos {T K S σ r : ℝ}
    (hT : T > 0) (hK : K > 0) (hS : S > 0) (hσ : σ > 0) :
    0 < bs_put_price T K S σ r := by
  have hid : K * Real.exp (-r * T) * stdNormalPDF (bs_d2 T K S σ r) =
      S * stdNormalPDF (bs_d1 T K S σ r) := bs_pdf_identity hT hK hS hσ
  have hd : -bs_d1 T K S σ r < -bs_d2 T K S σ r := by
    have h : bs_d2 T K S σ r < bs_d1 T K S σ r := bs_d2_lt_d1 hT hσ
    linarith
  have hR := millsRatio_strictMono hd
  have hp1 := stdNormalPDF_pos (bs_d1 T K S σ r)
  unfold bs_put_price
  rw [standard_normal_cdf_eq_millsRatio (-bs_d1 T K S σ r),
    standard_normal_cdf_eq_millsRatio (-bs_d2 T K S σ r),
    stdNormalPDF_even (bs_d1 T K S σ r), stdNormalPDF_even (bs_d2 T K S σ r)]
  have hrw : K * Real.exp (-r * T) *
      (millsRatio (-bs_d2 T K S σ r) * stdNormalPDF (bs_d2 T K S σ r)) =
      millsRatio (-bs_d2 T K S σ r) * (S * stdNormalPDF (bs_d1 T K S σ r)) := by
    rw [← hid]
    ring
  rw [hrw]
  nlinarith [mul_pos hS hp1]

/-- C6 (amended): for every strike `k` and all inputs with `ratio ≠ 0`, the
record's break-evens satisfy `callBreakEven = trunc(k) + callPrice / ratio`
and `putBreakEven = trunc(k) - putPrice / ratio`, where `trunc(k)` is the
truncated display strike; dividing by `ratio` recovers the raw premium
divided by `eurUsdRate` (not the unscaled premium), so the break-evens are
per-share only when `eurUsdRate = 1`. -/
theorem C6_break_evens {S v r T ratio eur k : ℝ} (hρ : ratio ≠ 0) :
    (option_prices_row S v r T ratio eur k).callBreakEven =
      (int_trunc k : ℝ) + (option_prices_row S v r T ratio eur k).callPrice / ratio ∧
    (option_prices_row S v r T ratio eur k).putBreakEven =
      (int_trunc k : ℝ) - (option_prices_row S v r T ratio eur k).putPrice / ratio ∧
    (option_prices_row S v r T ratio eur k).callBreakEven =
      (int_trunc k : ℝ) + bs_call_price T k S v r / eur ∧
    (option_prices_row S v r T ratio eur k).putBreakEven =
      (int_trunc k : ℝ) - bs_put_price T k S v r / eur := by
  refine ⟨rfl, rfl, ?_, ?_⟩
  · show (int_trunc k : ℝ) + bs_call_price T k S v r * ratio / eur / ratio = _
    rw [mul_div_right_comm, mul_div_cancel_right₀ _ hρ]
  · show (int_trunc k : ℝ) - bs_put_price T k S v r * ratio / eur / ratio = _
    rw [mul_div_right_comm, mul_div_cancel_right₀ _ hρ]

theorem C6_break_evens_witness :
    (option_prices_row 1 1 1 1 1 2 1).callBreakEven =
      (int_trunc (1:ℝ) : ℝ) + (option_prices_row 1 1 1 1 1 2 1).callPrice / 1 ∧
    (option_prices_row 1 1 1 1 1 2 1).putBreakEven =
      (int_trunc (1:ℝ) : ℝ) - (option_prices_row 1 1 1 1 1 2 1).putPrice / 1 ∧
    (option_prices_row 1 1 1 1 1 2 1).callBreakEven =
      (int_trunc (1:ℝ) : ℝ) + bs_call_price 1 1 1 1 1 / 2 ∧
    (option_prices_row 1 1 1 1 1 2 1).putBreakEven =
      (int_trunc (1:ℝ) : ℝ) - bs_put_price 1 1 1 1 1 / 2 :=
  C6_break_evens one_ne_zero

/-- C6 counterexample: at spot = strike = vol = rate = T = 1, ratio = 1 and
eurUsdRate = 2, the record's callBreakEven is `1 + rawPremium / 2`, which
differs from `k + rawPremium` (the claimed unscaled per-share break-even),
since the raw premium is strictly positive. -/
theorem C6_break_even_counterexample :
    (option_prices_row 1 1 1 1 1 2 1).callBreakEven ≠
      (1 : ℝ) + bs_call_price 1 1 1 1 1 := by
  have hpos : 0 < bs_call_price 1 1 1 1 1 :=
    bs_call_price_pos one_pos one_pos one_pos one_pos
  have htr : int_trunc (1:ℝ) = 1 := by
    unfold int_trunc
    rw [if_pos (by norm_num)]
    norm_num
  show (int_trunc (1:ℝ) : ℝ) + bs_call_price 1 1 1 1 1 * 1 / 2 / 1 ≠ _
  rw [htr]
  push_cast
  intro h
  nlinarith

/-- C10: under the Pricer preconditions together with `ratio > 0` and
`eurUsdRate > 0`, the record's put delta `-N(-d1)` is strictly negative and
the straddle cost `callPrice + putPrice * putsPerCall` is strictly positive,
so neither the `putsPerCall` division nor the `vegaPerStraddle` division
divides by zero. -/
theorem C10_denominators_nonzero {S v r T ratio eur k : ℝ}
    (hT : T > 0) (hk : k > 0) (hS : S > 0) (hv : v > 0) (_hr : r > 0)
    (hρ : ratio > 0) (he : eur > 0) :
    (option_prices_row S v r T ratio eur k).putDelta < 0 ∧
    0 < (option_prices_row S v r T ratio eur k).callPrice +
        (option_prices_row S v r T ratio eur k).putPrice *
          (option_prices_row S v r T ratio eur k).putsPerCall := by
  have hΦ1 := standard_normal_cdf_pos (bs_d1 T k S v r)
  have hΦ2 := standard_normal_cdf_pos (-bs_d1 T k S v r)
  have hC : 0 < bs_call_price T k S v r := bs_call_price_pos hT hk hS hv
  have hP : 0 < bs_put_price T k S v r := bs_put_price_pos hT hk hS hv
  constructor
  · show bs_put_delta T k S v r < 0
    unfold bs_put_delta
    linarith
  · show 0 < bs_call_price T k S v r * ratio / eur +
        bs_put_price T k S v r * ratio / eur *
          (-bs_call_delta T k S v r / bs_put_delta T k S v r)
    unfold bs_call_delta bs_put_delta
    rw [neg_div_neg_eq]
    have h1 : 0 < bs_call_price T k S v r * ratio / eur :=
      div_pos (mul_pos hC hρ) he
    have h2 : 0 < bs_put_price T k S v r * ratio / eur :=
      div_pos (mul_pos hP hρ) he
    have h3 : 0 < standard_normal_cdf (bs_d1 T k S v r) /
        standard_normal_cdf (-bs_d1 T k S v r) := div_pos hΦ1 hΦ2
    exact add_pos h1 (mul_pos h2 h3)

theorem C10_denominators_nonzero_witness :
    (option_prices_row 1 1 1 1 1 1 1).putDelta < 0 ∧
    0 < (option_prices_row 1 1 1 1 1 1 1).callPrice +
        (option_prices_row 1 1 1 1 1 1 1).putPrice *
          (option_prices_row 1 1 1 1 1 1 1).putsPerCall :=
  C10_denominators_nonzero one_pos one_pos one_pos one_pos one_pos one_pos one_pos

/-! ## Monotonicity of the Black-Scholes prices in the strike -/

/-- Unconditional put-call parity of the pure pricing formulas. -/
lemma bs_parity (T K S σ r : ℝ) :
    bs_call_price T K S σ r - bs_put_price T K S σ r = S - K * Real.exp (-r * T) := by
  unfold bs_call_price bs_put_price
  have h1 := standard_normal_cdf_add_neg (bs_d1 T K S σ r)
  have h2 := standard_normal_cdf_add_neg (bs_d2 T K S σ r)
  linear_combination S * h1 - K * Real.exp (-r * T) * h2

lemma bs_d1_hasDerivAt {T S σ K : ℝ} (r : ℝ)
    (hK : 0 < K) (hS : 0 < S) :
    HasDerivAt (fun k => bs_d1 T k S σ r) (-K⁻¹ / (σ * Real.sqrt T)) K := by
  have hinv : HasDerivAt (fun y : ℝ => y⁻¹) (-(K ^ 2)⁻¹) K := hasDerivAt_inv (ne_of_gt hK)
  have hf : HasDerivAt (fun y : ℝ => S / y) (S * -(K ^ 2)⁻¹) K := by
    simpa [div_eq_mul_inv] using hinv.const_mul S
  have hlog : HasDerivAt (fun y : ℝ => Real.log (S / y))
      (S * -(K ^ 2)⁻¹ / (S / K)) K := hf.log (ne_of_gt (div_pos hS hK))
  have hval : S * -(K ^ 2)⁻¹ / (S / K) = -K⁻¹ := by
    field_simp
    ring
  rw [hval] at hlog
  have h := (hlog.add_const ((r + 0.5 * σ ^ 2) * T)).div_const (σ * Real.sqrt T)
  exact h

lemma bs_d2_hasDerivAt {T S σ K : ℝ} (r : ℝ)
    (hK : 0 < K) (hS : 0 < S) :
    HasDerivAt (fun k => bs_d2 T k S σ r) (-K⁻¹ / (σ * Real.sqrt T)) K := by
  unfold bs_d2
  exact (bs_d1_hasDerivAt r hK hS).sub_const (σ * Real.sqrt T)

/-- The derivative of the call price in the strike is
`-exp(-r*T) * N(d2)`. -/
lemma bs_call_price_hasDerivAt {T S σ r K : ℝ}
    (hT : 0 < T) (hK : 0 < K) (hS : 0 < S) (hσ : 0 < σ) :
    HasDerivAt (fun k => bs_call_price T k S σ r)
      (-(Real.exp (-r * T) * standard_normal_cdf (bs_d2 T K S σ r))) K := by
  have hd1 : HasDerivAt (fun k => bs_d1 T k S σ r) (-K⁻¹ / (σ * Real.sqrt T)) K :=
    bs_d1_hasDerivAt r hK hS
  have hd2 : HasDerivAt (fun k => bs_d2 T k S σ r) (-K⁻¹ / (σ * Real.sqrt T)) K :=
    bs_d2_hasDerivAt r hK hS
  have hΦ1 : HasDerivAt (fun k => standard_normal_cdf (bs_d1 T k S σ r))
      (stdNormalPDF (bs_d1 T K S σ r) * (-K⁻¹ / (σ * Real.sqrt T))) K :=
    (standard_normal_cdf_hasDerivAt (bs_d1 T K S σ r)).comp K hd1
  have hΦ2 : HasDerivAt (fun k => standard_normal_cdf (bs_d2 T k S σ r))
      (stdNormalPDF (bs_d2 T K S σ r) * (-K⁻¹ / (σ * Real.sqrt T))) K :=
    (standard_normal_cdf_hasDerivAt (bs_d2 T K S σ r)).comp K hd2
  have hterm1 := hΦ1.const_mul S
  have hKE : HasDerivAt (fun k : ℝ => k * Real.exp (-r * T))
      (1 * Real.exp (-r * T)) K := (hasDerivAt_id K).mul_const _
  have hterm2 := hKE.mul hΦ2
  have hg := hterm1.sub hterm2
  have hid : K * Real.exp (-r * T) * stdNormalPDF (bs_d2 T K S σ r) =
      S * stdNormalPDF (bs_d1 T K S σ r) := bs_pdf_identity hT hK hS hσ
  have hfun : (fun k => bs_call_price T k S σ r) =
      fun k => S * standard_normal_cdf (bs_d1 T k S σ r) -
        k * Real.exp (-r * T) * standard_normal_cdf (bs_d2 T k S σ r) := rfl
  rw [hfun]
  convert hg using 1
  linear_combination (-K⁻¹ / (σ * Real.sqrt T)) * hid

lemma bs_call_price_lt {T S σ r K1 K2 : ℝ}
    (hT : 0 < T) (hS : 0 < S) (hσ : 0 < σ)
    (hK1 : 0 < K1) (h12 : K1 < K2) :
    bs_call_price T K2 S σ r < bs_call_price T K1 S σ r := by
  have hanti : StrictAntiOn (fun k => bs_call_price T k S σ r) (Ioi 0) := by
    apply strictAntiOn_of_deriv_neg (convex_Ioi 0)
    · intro x hx
      exact ((bs_call_price_hasDerivAt hT hx hS hσ).continuousAt).continuousWithinAt
    · intro x hx
      rw [interior_Ioi] at hx
      rw [(bs_call_price_hasDerivAt hT hx hS hσ).deriv]
      have hE := Real.exp_pos (-r * T)
      have hΦ := standard_normal_cdf_pos (bs_d2 T x S σ r)
      have := mul_pos hE hΦ
      linarith
  exact hanti (mem_Ioi.mpr hK1) (mem_Ioi.mpr (lt_trans hK1 h12)) h12

lemma bs_put_price_lt {T S σ r K1 K2 : ℝ}
    (hT : 0 < T) (hS : 0 < S) (hσ : 0 < σ)
    (hK1 : 0 < K1) (h12 : K1 < K2) :
    bs_put_price T K1 S σ r < bs_put_price T K2 S σ r := by
  have hmono : StrictMonoOn
      (fun k => bs_call_price T k S σ r + k * Real.exp (-r * T)) (Ioi 0) := by
    apply strictMonoOn_of_deriv_pos (convex_Ioi 0)
    · intro x hx
      have hd : HasDerivAt (fun k => bs_call_price T k S σ r + k * Real.exp (-r * T))
          (-(Real.exp (-r * T) * standard_normal_cdf (bs_d2 T x S σ r)) +
            1 * Real.exp (-r * T)) x :=
        (bs_call_price_hasDerivAt hT hx hS hσ).add
          ((hasDerivAt_id x).mul_const (Real.exp (-r * T)))
      exact hd.continuousAt.continuousWithinAt
    · intro x hx
      rw [interior_Ioi] at hx
      have hd : HasDerivAt (fun k => bs_call_price T k S σ r + k * Real.exp (-r * T))
          (-(Real.exp (-r * T) * standard_normal_cdf (bs_d2 T x S σ r)) +
            1 * Real.exp (-r * T)) x :=
        (bs_call_price_hasDerivAt hT hx hS hσ).add
          ((hasDerivAt_id x).mul_const (Real.exp (-r * T)))
      rw [hd.deriv]
      have hE := Real.exp_pos (-r * T)
      have hΦ := standard_normal_cdf_lt_one (bs_d2 T x S σ r)
      have hΦ0 := standard_normal_cdf_nonneg (bs_d2 T x S σ r)
      nlinarith
  have h := hmono (mem_Ioi.mpr hK1) (mem_Ioi.mpr (lt_trans hK1 h12)) h12
  have hp1 := bs_parity T K1 S σ r
  have hp2 := bs_parity T K2 S σ r
  simp only at h
  linarith

/-- C8: holding spot, volatility, rate, expiry fixed, for valid strikes
`K1 < K2` the Pricer's call price at `K2` is at most its call price at `K1`,
and its put price at `K2` is at least its put price at `K1`. -/
theorem C8_monotonic_in_strike {T S σ r K1 K2 : ℝ}
    (hT : T > 0) (hS : S > 0) (hσ : σ > 0) (hr : r > 0)
    (hK1 : K1 > 0) (h12 : K1 < K2) :
    ∀ c1 c2 p1 p2 : ℝ × ℝ × ℝ,
      black_scholes_option_price T K1 S σ r true = Except.ok c1 →
      black_scholes_option_price T K2 S σ r true = Except.ok c2 →
      black_scholes_option_price T K1 S σ r false = Except.ok p1 →
      black_scholes_option_price T K2 S σ r false = Except.ok p2 →
      c2.1 ≤ c1.1 ∧ p1.1 ≤ p2.1 := by
  intro c1 c2 p1 p2 hc1 hc2 hp1 hp2
  have hK2 : K2 > 0 := lt_trans hK1 h12
  rw [black_scholes_ok_call hT hK1 hS hσ hr] at hc1
  rw [black_scholes_ok_call hT hK2 hS hσ hr] at hc2
  rw [black_scholes_ok_put hT hK1 hS hσ hr] at hp1
  rw [black_scholes_ok_put hT hK2 hS hσ hr] at hp2
  injection hc1 with hc1
  injection hc2 with hc2
  injection hp1 with hp1
  injection hp2 with hp2
  rw [← hc1, ← hc2, ← hp1, ← hp2]
  constructor
  · show bs_call_price T K2 S σ r ≤ bs_call_price T K1 S σ r
    exact (bs_call_price_lt hT hS hσ hK1 h12).le
  · show bs_put_price T K1 S σ r ≤ bs_put_price T K2 S σ r
    exact (bs_put_price_lt hT hS hσ hK1 h12).le

theorem C8_monotonic_in_strike_witness :
    bs_call_price 1 2 1 1 1 ≤ bs_call_price 1 1 1 1 1 ∧
      bs_put_price 1 1 1 1 1 ≤ bs_put_price 1 2 1 1 1 :=
  C8_monotonic_in_strike one_pos one_pos one_pos one_pos one_pos one_lt_two _ _ _ _
    (black_scholes_ok_call one_pos one_pos one_pos one_pos one_pos)
    (black_scholes_ok_call one_pos two_pos one_pos one_pos one_pos)
    (black_scholes_ok_put one_pos one_pos one_pos one_pos one_pos)
    (black_scholes_ok_put one_pos two_pos one_pos one_pos one_pos)
